import Mathlib

/-
Verification of the feature-chunking pipeline (src/data/feature.py) and the
LWLRAP metric implementations (src/data/lwlrap.py) of the
Freesound-Audio-Tagging-2019 repository.

Numeric values are modelled as exact rationals.  Python integer arithmetic is
modelled with Nat, and the two operations of the code that can raise on the
modelled domain (integer division by a zero chunk size, and taking np.min of
an empty array) are modelled with an explicit error channel.
-/

set_option maxRecDepth 8000

namespace FAT

/-- Errors the chunking code can raise in Python on the modelled domain. -/
inductive PyError where
  | zeroDivisionError : PyError
  | valueError : PyError
deriving DecidableEq

/-! ## Per-sample precision calculator (src/data/lwlrap.py lines 6-36) -/

/-- Stable insertion of index `i` into an index list that is sorted by
ascending score: `i` is placed before the first index whose score is
strictly larger, so indices with equal scores keep their insertion order. -/
def insertAsc (s : List ℚ) (i : Nat) : List Nat → List Nat
  | [] => [i]
  | j :: js => if s.getD i 0 < s.getD j 0 then i :: j :: js else j :: insertAsc s i js

/-- Model of `np.argsort(scores)`: the list of indices `0 .. n-1` sorted by
ascending score.  Equal scores keep their original index order (a stable
ascending sort; numpy leaves the order of equal keys unspecified for its
default sort, but on the concrete tie inputs considered here numpy uses an
insertion sort and produces exactly this order). -/
def argsort (s : List ℚ) : List Nat :=
  (List.range s.length).foldl (fun acc i => insertAsc s i acc) []

/-- Model of `retrieved_classes = np.argsort(scores)[::-1]` (line 23):
the retrieval list, highest score first. -/
def retrieved_classes (s : List ℚ) : List Nat :=
  (argsort s).reverse

/-- Model of `class_rankings[retrieved_classes] = range(num_classes)`
(lines 25-26): the inverse permutation of the retrieval list, i.e.
`class_rankings[c]` is the position of class `c` in the retrieval list. -/
def class_rankings (s : List ℚ) : List Nat :=
  (List.range s.length).map (fun c => (retrieved_classes s).findIdx (fun j => j == c))

/-- Model of `np.cumsum`: inclusive prefix sums. -/
def cumsum (l : List Nat) : List Nat :=
  (List.range l.length).map (fun k => (l.take (k + 1)).sum)

/-- Model of `_one_sample_positive_class_precisions(scores, truth)`
(src/data/lwlrap.py lines 6-36): positive class indices together with the
precision of the retrieval list truncated at each positive class. -/
def one_sample_positive_class_precisions (scores truth : List ℚ) : List Nat × List ℚ :=
  let num_classes := scores.length
  let pos_class_indices := (List.range truth.length).filter (fun i => 0 < truth.getD i 0)
  if pos_class_indices.isEmpty then (pos_class_indices, [])
  else
    let rankings := class_rankings scores
    let hit_ranks := pos_class_indices.map (fun c => rankings.getD c 0)
    let retrieved_class_true :=
      (List.range num_classes).map (fun k => if k ∈ hit_ranks then 1 else 0)
    let retrieved_cumulative_hits := cumsum retrieved_class_true
    (pos_class_indices,
      pos_class_indices.map (fun c =>
        ((retrieved_cumulative_hits.getD (rankings.getD c 0) 0 : ℚ)) /
          (1 + (rankings.getD c 0 : ℚ))))

/-! ## LWLRAP aggregator (src/data/lwlrap.py lines 39-76) -/

/-- Scatter of values into a zero row of width `n` at the given indices:
model of `precisions_for_samples_by_classes[sample_num, pos_class_indices]
= precision_at_hits` (lines 64-65). -/
def scatterRow (n : Nat) (idxs : List Nat) (vals : List ℚ) : List ℚ :=
  (idxs.zip vals).foldl (fun acc p => acc.set p.1 p.2) (List.replicate n 0)

/-- Model of `calculate_per_class_lwlrap(truth, scores)` (lines 39-76):
returns the per-class lwlrap vector and the per-class weight vector. -/
def calculate_per_class_lwlrap (truth scores : List (List ℚ)) : List ℚ × List ℚ :=
  let num_samples := scores.length
  let num_classes := (scores.headD []).length
  let precisions_for_samples_by_classes :=
    (List.range num_samples).map (fun s =>
      let p := one_sample_positive_class_precisions (scores.getD s []) (truth.getD s [])
      scatterRow num_classes p.1 p.2)
  let labels_per_class :=
    (List.range num_classes).map (fun c => (truth.filter (fun row => 0 < row.getD c 0)).length)
  let weight_per_class :=
    labels_per_class.map (fun (k : Nat) => (k : ℚ) / ((labels_per_class.sum : Nat) : ℚ))
  let per_class_lwlrap :=
    (List.range num_classes).map (fun c =>
      ((precisions_for_samples_by_classes.map (fun row => row.getD c 0)).sum) /
        ((max 1 (labels_per_class.getD c 0) : Nat) : ℚ))
  (per_class_lwlrap, weight_per_class)

/-- The overall lwlrap, computed by the caller as the dot product
`np.sum(per_class_lwlrap * weight_per_class)` (comment on lines 52-53). -/
def overall_lwlrap (truth scores : List (List ℚ)) : ℚ :=
  let pw := calculate_per_class_lwlrap truth scores
  (List.zipWith (fun a b => a * b) pw.1 pw.2).sum

/-! ## Graph-native LWLRAP (src/data/lwlrap.py lines 79-149) -/

/-- Stable insertion of index `i` into an index list sorted by descending
score: `i` is placed before the first index whose score is strictly smaller,
so indices with equal scores keep their insertion order. -/
def insertDesc (s : List ℚ) (i : Nat) : List Nat → List Nat
  | [] => [i]
  | j :: js => if s.getD j 0 < s.getD i 0 then i :: j :: js else j :: insertDesc s i js

/-- Model of `tf.nn.top_k(row, k=num_classes).indices` for one row (line 84):
indices sorted by descending score, ties broken by the lower original index
first (top_k is documented to break ties this way). -/
def topKIndices (s : List ℚ) : List Nat :=
  (List.range s.length).foldl (fun acc i => insertDesc s i acc) []

/-- Rank of each class in the graph-native implementation: the inverse
permutation of the top_k retrieval list, built by the scatter on
lines 85-97. -/
def tf_class_rankings (s : List ℚ) : List Nat :=
  (List.range s.length).map (fun c => (topKIndices s).findIdx (fun j => j == c))

/-- Model of `pos_class_indices = tf.where(y_true > 0)` (line 82):
coordinates of positive labels in row-major order. -/
def tf_pos_class_indices (y_true : List (List ℚ)) : List (Nat × Nat) :=
  (List.range y_true.length).flatMap (fun s =>
    ((List.range (y_true.getD s []).length).filter
        (fun c => 0 < (y_true.getD s []).getD c 0)).map (fun c => (s, c)))

/-- Model of `num_correct_until_correct = tf.gather_nd(class_rankings,
pos_class_indices)` (line 99): the rank of each positive label, enumerated
in row-major (sample, class) order. -/
def tf_num_correct_until_correct (y_true y_pred : List (List ℚ)) : List Nat :=
  (tf_pos_class_indices y_true).map
    (fun p => (tf_class_rankings (y_pred.getD p.1 [])).getD p.2 0)

/-- Model of `retrieved_class_true` (lines 105-115): ones scattered at the
(sample, rank) coordinates of the positive labels; `tf.scatter_nd` adds
duplicate contributions, hence a count. -/
def tf_retrieved_class_true (y_true y_pred : List (List ℚ)) : List (List Nat) :=
  (List.range y_pred.length).map (fun s =>
    let rankings := tf_class_rankings (y_pred.getD s [])
    let hit_ranks :=
      ((List.range (y_true.getD s []).length).filter
          (fun c => 0 < (y_true.getD s []).getD c 0)).map (fun c => rankings.getD c 0)
    (List.range (y_pred.getD s []).length).map (fun r => hit_ranks.count r))

/-- Model of `pos_ret_indices = tf.where(retrieved_class_true > 0)`
(line 120): coordinates of the positive ranks in row-major (sample, rank)
order. -/
def tf_pos_ret_indices (y_true y_pred : List (List ℚ)) : List (Nat × Nat) :=
  (List.range y_pred.length).flatMap (fun s =>
    ((List.range ((tf_retrieved_class_true y_true y_pred).getD s []).length).filter
        (fun r => 0 < ((tf_retrieved_class_true y_true y_pred).getD s []).getD r 0)).map
      (fun r => (s, r)))

/-- Model of `correct_rank = tf.gather_nd(retrieved_cumulative_hits,
pos_ret_indices)` (lines 117-123): cumulative hit counts, enumerated in
row-major (sample, rank) order. -/
def tf_correct_rank (y_true y_pred : List (List ℚ)) : List Nat :=
  (tf_pos_ret_indices y_true y_pred).map
    (fun p => (cumsum ((tf_retrieved_class_true y_true y_pred).getD p.1 [])).getD p.2 0)

/-- Model of `precision_at_hits = tf.truediv(correct_rank,
num_correct_until_correct_one)` (line 127).  Note that the numerator list is
enumerated in (sample, rank) order while the denominator list is enumerated
in (sample, class) order, exactly as in the source. -/
def tf_precision_at_hits (y_true y_pred : List (List ℚ)) : List ℚ :=
  List.zipWith (fun (cr nc : Nat) => (cr : ℚ) / ((nc : ℚ) + 1))
    (tf_correct_rank y_true y_pred) (tf_num_correct_until_correct y_true y_pred)

/-- Model of `tf_lwlrap(y_true, y_pred)` (src/data/lwlrap.py lines 132-149):
the graph-native overall lwlrap scalar. -/
def tf_lwlrap (y_true y_pred : List (List ℚ)) : ℚ :=
  let num_classes := (y_pred.headD []).length
  let pos := tf_pos_class_indices y_true
  let prec := tf_precision_at_hits y_true y_pred
  let labels_per_class :=
    (List.range num_classes).map (fun c => (y_true.filter (fun row => 0 < row.getD c 0)).length)
  let weight_per_class :=
    labels_per_class.map (fun (k : Nat) => (k : ℚ) / ((labels_per_class.sum : Nat) : ℚ))
  let class_label := pos.map (fun p => p.2)
  let sum_precisions_by_classes :=
    (List.range num_classes).map (fun c =>
      ((class_label.zip prec).filter (fun p => p.1 == c)).foldl (fun acc p => acc + p.2) 0)
  let per_class_lwlrap :=
    (sum_precisions_by_classes.zip labels_per_class).map
      (fun p => p.1 / ((p.2 : ℚ) + 1 / 10000000))
  (List.zipWith (fun a b => a * b) per_class_lwlrap weight_per_class).sum

/-! ## Feature chunking (src/data/feature.py lines 63-125) -/

/-- Model of `pad_truncate(x, length, pad_value)` (src/data/feature.py
lines 63-79).  For a 2-D input the padding element is a whole row filled
with the padding value, matching `np.full((length - x_len,) + x.shape[1:],
pad_value)`. -/
def pad_truncate {α : Type} (x : List α) (length : Nat) (pad_value : α) : List α :=
  if length < x.length then x.take length
  else if x.length < length then x ++ List.replicate (length - x.length) pad_value
  else x

/-- Model of `np.min(feat)`: the least entry of the matrix (the Python call
raises on an empty array; callers guard that case explicitly). -/
def matMin (feat : List (List ℚ)) : ℚ :=
  match feat.flatten with
  | [] => 0
  | x :: xs => xs.foldl min x

/-- Model of `np.split(y, q)` for a list `y` of `q * cs` rows: the `q`
consecutive blocks of `cs` rows each. -/
def splitChunks {α : Type} (x : List α) (cs : Nat) : Nat → List (List α)
  | 0 => []
  | q + 1 => x.take cs :: splitChunks (x.drop cs) cs q

/-- Model of `truncate_features(vector, n_mel, chunk_size, r_threshold)`
(src/data/feature.py lines 82-125).  The input is taken as the already
reshaped (T, n_mel) matrix; Python raises ZeroDivisionError when
`chunk_size` is zero and ValueError when `np.min` is applied to an empty
array, modelled by the error channel. -/
def truncate_features (feat : List (List ℚ)) (n_mel chunk_size r_threshold : Nat) :
    Except PyError (List (List (List ℚ))) :=
  if chunk_size = 0 then .error .zeroDivisionError
  else
    let q := feat.length / chunk_size
    let r := feat.length % chunk_size
    if q = 0 then
      if feat.flatten.isEmpty then .error .valueError
      else .ok [pad_truncate feat chunk_size (List.replicate n_mel (matMin feat))]
    else
      let off := if r < r_threshold then r / 2 else 0
      let chunks := splitChunks ((feat.drop off).take (q * chunk_size)) chunk_size q
      if r_threshold ≤ r then .ok (chunks ++ [feat.drop (feat.length - chunk_size)])
      else .ok chunks

/-! ## Logmel extractor configuration (src/data/feature.py lines 166-209) -/

/-- State held by `LogmelExtractor` after construction. -/
structure LogmelExtractor where
  sample_rate : ℚ
  n_window : Nat
  hop_length : Nat
  n_mels : Nat
  mel_fb : List (List ℚ)

/-- Modelled from the spec: the Mel Filterbank Builder
(`librosa.filters.mel`, an external library call) returns a matrix of shape
(n_mels, n_window / 2 + 1); only its shape is relevant to the claims, so the
triangular filter values are not modelled. -/
def melFilterbank (sample_rate : ℚ) (n_fft n_mels : Nat) : List (List ℚ) :=
  List.replicate n_mels (List.replicate (n_fft / 2 + 1) ((sample_rate - sample_rate) * 0))

/-- Model of `LogmelExtractor.__init__` (lines 182-197): the parameters are
stored unchecked and the mel filterbank matrix is built once. -/
def LogmelExtractor.init (sample_rate : ℚ) (n_window hop_length n_mels : Nat) :
    LogmelExtractor :=
  { sample_rate := sample_rate
    n_window := n_window
    hop_length := hop_length
    n_mels := n_mels
    mel_fb := melFilterbank sample_rate n_window n_mels }

/-- Model of `LogmelExtractor.output_shape(clip_duration)` (lines 199-209):
Python floor division of the sample count by the hop length, plus one frame,
paired with the row count of the stored filterbank. -/
def LogmelExtractor.output_shape (e : LogmelExtractor) (clip_duration : ℚ) : ℤ × Nat :=
  let n_samples := clip_duration * e.sample_rate
  let n_frames := Int.floor (n_samples / (e.hop_length : ℚ)) + 1
  (n_frames, e.mel_fb.length)

/-! ## Concrete fixtures used by witnesses -/

/-- A 300-frame feature matrix with a single mel band. -/
def feat300 : List (List ℚ) := List.replicate 300 [0]

/-- A 265-frame feature matrix with a single mel band. -/
def feat265 : List (List ℚ) := List.replicate 265 [0]

/-- A 50-frame feature matrix with a single mel band. -/
def feat50 : List (List ℚ) := List.replicate 50 [0]

/-! ## Chunking lemmas -/

theorem splitChunks_eq_map {α : Type} (cs : Nat) :
    ∀ (q : Nat) (x : List α),
      splitChunks x cs q = (List.range q).map (fun k => (x.drop (k * cs)).take cs) := by
  intro q
  induction q with
  | zero => intro x; rfl
  | succ n ih =>
    intro x
    show x.take cs :: splitChunks (x.drop cs) cs n = _
    rw [ih, List.range_succ_eq_map, List.map_cons, List.map_map]
    congr 1
    · simp
    · apply List.map_congr_left
      intro k _
      show ((x.drop cs).drop (k * cs)).take cs = (x.drop (Nat.succ k * cs)).take cs
      rw [List.drop_drop]
      have h : cs + k * cs = Nat.succ k * cs := by
        rw [Nat.succ_mul]; omega
      rw [h]

theorem chunk_of_take {α : Type} (x : List α) (cs q k : Nat) (hk : k < q) :
    ((x.take (q * cs)).drop (k * cs)).take cs = (x.drop (k * cs)).take cs := by
  rw [List.drop_take, List.take_take]
  congr 1
  have h1 : (k + 1) * cs ≤ q * cs := Nat.mul_le_mul_right cs hk
  have h2 : (k + 1) * cs = k * cs + cs := by rw [Nat.succ_mul]
  have : cs ≤ q * cs - k * cs := by omega
  exact inf_eq_left.mpr this

theorem flatten_chunks {α : Type} (x : List α) (cs : Nat) :
    ∀ q : Nat,
      ((List.range q).map (fun k => (x.drop (k * cs)).take cs)).flatten = x.take (q * cs) := by
  intro q
  induction q with
  | zero => simp
  | succ n ih =>
    rw [List.range_succ, List.map_append, List.flatten_append, ih]
    have h : (n + 1) * cs = n * cs + cs := by rw [Nat.succ_mul]
    rw [h, List.take_add]
    simp

theorem foldl_min_mem (xs : List ℚ) : ∀ a : ℚ, xs.foldl min a ∈ a :: xs := by
  induction xs with
  | nil => intro a; exact List.mem_cons_self a []
  | cons x xs ih =>
    intro a
    rw [List.foldl_cons]
    rcases List.mem_cons.mp (ih (min a x)) with h1 | h1
    · rcases min_choice a x with h2 | h2
      · rw [h1, h2]; exact List.mem_cons_self a (x :: xs)
      · rw [h1, h2]; exact List.mem_cons_of_mem a (List.mem_cons_self x xs)
    · exact List.mem_cons_of_mem a (List.mem_cons_of_mem x h1)

theorem foldl_min_le (xs : List ℚ) : ∀ a : ℚ, ∀ y ∈ a :: xs, xs.foldl min a ≤ y := by
  induction xs with
  | nil =>
    intro a y hy
    rcases List.mem_cons.mp hy with h1 | h1
    · rw [h1]; exact le_refl a
    · exact absurd h1 (List.not_mem_nil y)
  | cons x xs ih =>
    intro a y hy
    rw [List.foldl_cons]
    rcases List.mem_cons.mp hy with h1 | h1
    · rw [h1]
      exact le_trans (ih (min a x) (min a x) (List.mem_cons_self _ _)) (min_le_left a x)
    rcases List.mem_cons.mp h1 with h2 | h2
    · rw [h2]
      exact le_trans (ih (min a x) (min a x) (List.mem_cons_self _ _)) (min_le_right a x)
    · exact ih (min a x) y (List.mem_cons_of_mem _ h2)

theorem matMin_mem (feat : List (List ℚ)) (hne : feat.flatten ≠ []) :
    matMin feat ∈ feat.flatten := by
  cases hf : feat.flatten with
  | nil => exact absurd hf hne
  | cons x xs =>
    simp only [matMin, hf]
    exact foldl_min_mem xs x

theorem matMin_le (feat : List (List ℚ)) : ∀ y ∈ feat.flatten, matMin feat ≤ y := by
  intro y hy
  cases hf : feat.flatten with
  | nil => rw [hf] at hy; exact absurd hy (List.not_mem_nil y)
  | cons x xs =>
    simp only [matMin, hf]
    rw [hf] at hy
    exact foldl_min_le xs x y hy

/-! ## C2: the overlap branch of the chunker -/

/-- C2: for `T >= chunk_size` and remainder `r >= r_threshold`,
`truncate_features` returns exactly `q + 1` chunks: the first `q` chunks are
the contiguous non-overlapping partition of the first `q * chunk_size` rows
(no frames dropped from the front), and the final chunk is the last
`chunk_size` rows, overlapping the penultimate chunk in exactly
`chunk_size - r` rows. -/
theorem truncate_features_overlap_branch (feat : List (List ℚ)) (n_mel cs rt : Nat)
    (hcs : 0 < cs) (hT : cs ≤ feat.length) (hr : rt ≤ feat.length % cs) :
    truncate_features feat n_mel cs rt =
        .ok (((List.range (feat.length / cs)).map (fun k => (feat.drop (k * cs)).take cs)) ++
          [feat.drop (feat.length - cs)]) ∧
      (((List.range (feat.length / cs)).map (fun k => (feat.drop (k * cs)).take cs)) ++
          [feat.drop (feat.length - cs)]).length = feat.length / cs + 1 ∧
      ((List.range (feat.length / cs)).map (fun k => (feat.drop (k * cs)).take cs)).flatten =
        feat.take (feat.length / cs * cs) ∧
      (feat.drop (feat.length - cs)).length = cs ∧
      (feat.drop (feat.length - cs)).take (cs - feat.length % cs) =
        ((feat.drop ((feat.length / cs - 1) * cs)).take cs).drop (feat.length % cs) := by
  have h0 : cs ≠ 0 := Nat.pos_iff_ne_zero.mp hcs
  have hq1 : 1 ≤ feat.length / cs := (Nat.one_le_div_iff hcs).mpr hT
  have hqn : feat.length / cs ≠ 0 := by omega
  have hdm : cs * (feat.length / cs) + feat.length % cs = feat.length :=
    Nat.div_add_mod feat.length cs
  refine ⟨?_, ?_, ?_, ?_, ?_⟩
  · simp only [truncate_features]
    rw [if_neg h0, if_neg hqn, if_neg (by omega : ¬ feat.length % cs < rt), if_pos hr]
    congr 2
    rw [List.drop_zero, splitChunks_eq_map]
    apply List.map_congr_left
    intro k hk
    exact chunk_of_take feat cs (feat.length / cs) k (List.mem_range.mp hk)
  · simp
  · exact flatten_chunks feat cs (feat.length / cs)
  · rw [List.length_drop]; omega
  · rw [List.drop_take, List.drop_drop]
    have h1 : feat.length - cs = (feat.length / cs - 1) * cs + feat.length % cs := by
      obtain ⟨q1, hq⟩ : ∃ q1, feat.length / cs = q1 + 1 :=
        ⟨feat.length / cs - 1, by omega⟩
      rw [hq] at hdm ⊢
      simp only [Nat.add_sub_cancel]
      have h2 : q1 * cs = cs * q1 := Nat.mul_comm q1 cs
      have h3 : cs * (q1 + 1) = cs * q1 + cs := by ring
      rw [h3] at hdm
      omega
    rw [h1]

/-- Witness for C2 at the spec test case: a 300-frame matrix with
chunk_size 128 and r_threshold 32 has remainder 44 and takes the overlap
branch. -/
theorem truncate_features_overlap_branch_witness :
    (0 < 128 ∧ 128 ≤ feat300.length ∧ 32 ≤ feat300.length % 128) ∧
      truncate_features feat300 1 128 32 =
        .ok (((List.range (feat300.length / 128)).map
            (fun k => (feat300.drop (k * 128)).take 128)) ++
          [feat300.drop (feat300.length - 128)]) :=
  ⟨⟨by decide, by decide, by decide⟩,
    (truncate_features_overlap_branch feat300 1 128 32 (by decide) (by decide) (by decide)).1⟩

/-! ## C4: the symmetric-drop branch of the chunker -/

/-- C4: for `T >= chunk_size` and remainder `r < r_threshold`,
`truncate_features` returns exactly `q` chunks whose concatenation is rows
`off` through `off + q * chunk_size - 1` of the input, with
`off = r / 2`; when `r = 0` the concatenation is the whole input. -/
theorem truncate_features_symmetric_drop_branch (feat : List (List ℚ)) (n_mel cs rt : Nat)
    (hcs : 0 < cs) (hT : cs ≤ feat.length) (hr : feat.length % cs < rt) :
    truncate_features feat n_mel cs rt =
        .ok ((List.range (feat.length / cs)).map
          (fun k => (feat.drop (feat.length % cs / 2 + k * cs)).take cs)) ∧
      ((List.range (feat.length / cs)).map
          (fun k => (feat.drop (feat.length % cs / 2 + k * cs)).take cs)).length =
        feat.length / cs ∧
      ((List.range (feat.length / cs)).map
          (fun k => (feat.drop (feat.length % cs / 2 + k * cs)).take cs)).flatten =
        (feat.drop (feat.length % cs / 2)).take (feat.length / cs * cs) ∧
      (feat.length % cs = 0 →
        ((List.range (feat.length / cs)).map
            (fun k => (feat.drop (feat.length % cs / 2 + k * cs)).take cs)).flatten = feat) := by
  have h0 : cs ≠ 0 := Nat.pos_iff_ne_zero.mp hcs
  have hq1 : 1 ≤ feat.length / cs := (Nat.one_le_div_iff hcs).mpr hT
  have hqn : feat.length / cs ≠ 0 := by omega
  have hmap : (List.range (feat.length / cs)).map
        (fun k => (feat.drop (feat.length % cs / 2 + k * cs)).take cs) =
      (List.range (feat.length / cs)).map
        (fun k => ((feat.drop (feat.length % cs / 2)).drop (k * cs)).take cs) := by
    apply List.map_congr_left
    intro k _
    rw [List.drop_drop]
  refine ⟨?_, ?_, ?_, ?_⟩
  · simp only [truncate_features]
    rw [if_neg h0, if_neg hqn, if_pos hr, if_neg (by omega : ¬ rt ≤ feat.length % cs)]
    congr 1
    rw [hmap, splitChunks_eq_map]
    apply List.map_congr_left
    intro k hk
    exact chunk_of_take (feat.drop (feat.length % cs / 2)) cs (feat.length / cs) k
      (List.mem_range.mp hk)
  · simp
  · rw [hmap]
    exact flatten_chunks (feat.drop (feat.length % cs / 2)) cs (feat.length / cs)
  · intro hzero
    rw [hmap]
    rw [flatten_chunks (feat.drop (feat.length % cs / 2)) cs (feat.length / cs)]
    rw [hzero]
    simp only [Nat.zero_div, List.drop_zero]
    have hdm : cs * (feat.length / cs) + feat.length % cs = feat.length :=
      Nat.div_add_mod feat.length cs
    rw [hzero] at hdm
    have hcomm : feat.length / cs * cs = cs * (feat.length / cs) := Nat.mul_comm _ _
    have hlen : feat.length / cs * cs = feat.length := by omega
    rw [hlen, List.take_length]

/-- Witness for C4 at the spec test case: a 265-frame matrix with
chunk_size 128 and r_threshold 32 has remainder 9 and takes the
symmetric-drop branch, dropping 4 frames from the front. -/
theorem truncate_features_symmetric_drop_branch_witness :
    (0 < 128 ∧ 128 ≤ feat265.length ∧ feat265.length % 128 < 32) ∧
      truncate_features feat265 1 128 32 =
        .ok ((List.range (feat265.length / 128)).map
          (fun k => (feat265.drop (feat265.length % 128 / 2 + k * 128)).take 128)) :=
  ⟨⟨by decide, by decide, by decide⟩,
    (truncate_features_symmetric_drop_branch feat265 1 128 32
      (by decide) (by decide) (by decide)).1⟩

/-! ## C3: the padding branch of the chunker -/

/-- C3: for `T < chunk_size`, `truncate_features` returns exactly one chunk
of `chunk_size` rows: the input followed by `chunk_size - T` padding rows
whose every entry is the minimum value present in the input matrix, with the
original rows unchanged and in order. -/
theorem truncate_features_pad_branch (feat : List (List ℚ)) (n_mel cs rt : Nat)
    (hT : feat.length < cs) (hne : feat.flatten ≠ []) :
    truncate_features feat n_mel cs rt =
        .ok [feat ++ List.replicate (cs - feat.length) (List.replicate n_mel (matMin feat))] ∧
      (feat ++ List.replicate (cs - feat.length) (List.replicate n_mel (matMin feat))).length
        = cs ∧
      matMin feat ∈ feat.flatten ∧
      (∀ y ∈ feat.flatten, matMin feat ≤ y) ∧
      (∀ row ∈ List.replicate (cs - feat.length) (List.replicate n_mel (matMin feat)),
        ∀ y ∈ row, y = matMin feat) := by
  have h0 : cs ≠ 0 := by omega
  have hq : feat.length / cs = 0 := Nat.div_eq_of_lt hT
  refine ⟨?_, ?_, matMin_mem feat hne, matMin_le feat, ?_⟩
  · simp only [truncate_features]
    rw [if_neg h0, if_pos hq, if_neg (by simpa [List.isEmpty_iff] using hne)]
    congr 2
    unfold pad_truncate
    rw [if_neg (by omega : ¬ cs < feat.length), if_pos hT]
  · rw [List.length_append, List.length_replicate]
    omega
  · intro row hrow y hy
    rw [List.eq_of_mem_replicate hrow] at hy
    exact List.eq_of_mem_replicate hy

/-- Witness for C3 at the spec test case: a 50-frame matrix with
chunk_size 128 is padded to a single 128-row chunk. -/
theorem truncate_features_pad_branch_witness :
    (feat50.length < 128 ∧ feat50.flatten ≠ []) ∧
      truncate_features feat50 1 128 32 =
        .ok [feat50 ++
          List.replicate (128 - feat50.length) (List.replicate 1 (matMin feat50))] :=
  ⟨⟨by decide, by decide⟩,
    (truncate_features_pad_branch feat50 1 128 32 (by decide) (by decide)).1⟩

/-! ## C8: no configuration validation -/

/-- C8 counterexample: invoking the chunker with the invalid configuration
`r_threshold = chunk_size = 128` (the spec requires `r_threshold <
chunk_size` to be enforced with a configuration error) does not fail; it
returns chunks normally. -/
theorem truncate_features_accepts_invalid_threshold :
    ∃ l, truncate_features feat300 1 128 128 = .ok l :=
  ⟨_, rfl⟩

/-- C8 amended: the code performs no configuration validation.  For every
positive chunk size, every r_threshold whatsoever (including r_threshold at
least chunk_size) and every nonempty input, the chunker returns chunks
normally instead of failing fast; the only failures are the unchecked
ZeroDivisionError for a zero chunk size and the np.min ValueError on an
empty matrix. -/
theorem truncate_features_no_config_check (feat : List (List ℚ)) (n_mel cs rt : Nat)
    (hcs : 0 < cs) (hne : feat.flatten ≠ []) :
    ∃ l, truncate_features feat n_mel cs rt = .ok l := by
  have h0 : cs ≠ 0 := by omega
  simp only [truncate_features]
  rw [if_neg h0]
  by_cases hq : feat.length / cs = 0
  · rw [if_pos hq, if_neg (by simpa [List.isEmpty_iff] using hne)]
    exact ⟨_, rfl⟩
  · rw [if_neg hq]
    by_cases hrt : rt ≤ feat.length % cs
    · rw [if_pos hrt]
      exact ⟨_, rfl⟩
    · rw [if_neg hrt]
      exact ⟨_, rfl⟩

/-- Witness for the amended C8: chunk size 128 with the invalid
r_threshold 200 still returns chunks. -/
theorem truncate_features_no_config_check_witness :
    ((0:Nat) < 128 ∧ ([[(1:ℚ)]] : List (List ℚ)).flatten ≠ []) ∧
      ∃ l, truncate_features [[(1:ℚ)]] 1 128 200 = .ok l :=
  ⟨⟨by decide, by decide⟩,
    truncate_features_no_config_check [[(1:ℚ)]] 1 128 200 (by decide) (by decide)⟩

/-! ## C10: pad_truncate -/

/-- C10: pad_truncate always returns a list of length exactly `L`; it
truncates to the first `L` elements when the input is longer, returns the
input unchanged when the lengths match, and appends `L - len` copies of the
padding value when the input is shorter. -/
theorem pad_truncate_spec {α : Type} (x : List α) (L : Nat) (v : α) :
    (pad_truncate x L v).length = L ∧
      (L < x.length → pad_truncate x L v = x.take L) ∧
      (x.length = L → pad_truncate x L v = x) ∧
      (x.length < L → pad_truncate x L v = x ++ List.replicate (L - x.length) v) := by
  unfold pad_truncate
  refine ⟨?_, ?_, ?_, ?_⟩
  · split_ifs with h1 h2
    · rw [List.length_take]
      exact inf_eq_left.mpr (Nat.le_of_lt h1)
    · rw [List.length_append, List.length_replicate]
      omega
    · omega
  · intro h; rw [if_pos h]
  · intro h; rw [if_neg (by omega), if_neg (by omega)]
  · intro h; rw [if_neg (by omega), if_pos h]

/-- Witness for C10: the truncation case at length 2 and the padding case
at length 5, both on a three-element list. -/
theorem pad_truncate_spec_witness :
    ((2:Nat) < ([1, 2, 3] : List ℚ).length ∧
        pad_truncate ([1, 2, 3] : List ℚ) 2 0 = ([1, 2, 3] : List ℚ).take 2) ∧
      (([1, 2, 3] : List ℚ).length < 5 ∧
        pad_truncate ([1, 2, 3] : List ℚ) 5 0 =
          ([1, 2, 3] : List ℚ) ++ List.replicate (5 - ([1, 2, 3] : List ℚ).length) 0) :=
  ⟨⟨by decide, (pad_truncate_spec ([1, 2, 3] : List ℚ) 2 0).2.1 (by decide)⟩,
    ⟨by decide, (pad_truncate_spec ([1, 2, 3] : List ℚ) 5 0).2.2.2 (by decide)⟩⟩

/-! ## C9: output_shape -/

/-- C9: for a non-negative clip duration, `output_shape` is a pure function
returning `(floor(duration * sample_rate / hop_length) + 1, n_mels)`, where
the second component is the number of rows of the mel filterbank built at
construction. -/
theorem output_shape_spec (sr : ℚ) (nw hl nm : Nat) (d : ℚ)
    (hhl : 0 < hl) (hd : 0 ≤ d) :
    (LogmelExtractor.init sr nw hl nm).output_shape d =
      (Int.floor (d * sr / (hl : ℚ)) + 1, nm) := by
  simp [LogmelExtractor.init, LogmelExtractor.output_shape, melFilterbank]

/-- Witness for C9 at the default configuration and a 3-second clip. -/
theorem output_shape_spec_witness :
    ((0:Nat) < 512 ∧ (0:ℚ) ≤ 3) ∧
      (LogmelExtractor.init 32000 1024 512 64).output_shape 3 =
        (Int.floor ((3:ℚ) * 32000 / ((512:Nat) : ℚ)) + 1, 64) :=
  ⟨⟨by decide, by norm_num⟩,
    output_shape_spec 32000 1024 512 64 3 (by decide) (by norm_num)⟩

/-! ## C6: classes with zero positive occurrences -/

theorem getD_map_range {β : Type} (n c : Nat) (f : Nat → β) (d : β) (h : c < n) :
    ((List.range n).map f).getD c d = f c := by
  rw [List.getD_eq_getElem?_getD, List.getElem?_map, List.getElem?_range h]
  rfl

theorem scatter_foldl_getD_zero (c : Nat) :
    ∀ (ps : List (Nat × ℚ)) (acc : List ℚ), (∀ p ∈ ps, p.1 ≠ c) → acc.getD c 0 = 0 →
      (ps.foldl (fun acc p => acc.set p.1 p.2) acc).getD c 0 = 0 := by
  intro ps
  induction ps with
  | nil => intro acc _ hacc; exact hacc
  | cons p ps ih =>
    intro acc hps hacc
    rw [List.foldl_cons]
    apply ih
    · intro p2 hp2
      exact hps p2 (List.mem_cons_of_mem p hp2)
    · rw [List.getD_eq_getElem?_getD,
        List.getElem?_set_ne (hps p (List.mem_cons_self p ps)),
        ← List.getD_eq_getElem?_getD]
      exact hacc

theorem scatterRow_getD_zero (n : Nat) (idxs : List Nat) (vals : List ℚ) (c : Nat)
    (hc : c ∉ idxs) : (scatterRow n idxs vals).getD c 0 = 0 := by
  apply scatter_foldl_getD_zero
  · intro p hp hpc
    obtain ⟨p1, p2⟩ := p
    exact hc (hpc ▸ (List.of_mem_zip hp).1)
  · rw [List.getD_eq_getElem?_getD, List.getElem?_replicate]
    split_ifs <;> rfl

theorem one_sample_fst (scores truth : List ℚ) :
    (one_sample_positive_class_precisions scores truth).1 =
      (List.range truth.length).filter (fun i => 0 < truth.getD i 0) := by
  simp only [one_sample_positive_class_precisions]
  split <;> rfl

theorem not_mem_pos_indices (truth : List (List ℚ)) (c : Nat)
    (hzero : ∀ row ∈ truth, ¬ 0 < row.getD c 0) (s : Nat) :
    c ∉ (List.range (truth.getD s []).length).filter
        (fun i => decide (0 < (truth.getD s []).getD i 0)) := by
  intro hmem
  have h := (List.mem_filter.mp hmem).2
  rw [decide_eq_true_eq] at h
  by_cases hs : s < truth.length
  · have hrow : truth.getD s [] ∈ truth := by
      rw [List.getD_eq_getElem?_getD, List.getElem?_eq_getElem hs, Option.getD_some]
      exact List.getElem_mem hs
    exact hzero _ hrow h
  · rw [List.getD_eq_default truth [] (by omega)] at h
    simp at h

/-- C6: a class with zero positive occurrences across the whole batch does
not make `calculate_per_class_lwlrap` fail; its per-class lwlrap entry is 0
and its weight entry is 0.  The divisor is `max 1 count`, never 0, so every
entry of both output vectors is a well-defined rational (in this exact
model no NaN can arise). -/
theorem per_class_lwlrap_zero_positive_class (truth scores : List (List ℚ)) (c : Nat)
    (hshape : truth.length = scores.length)
    (htotal : 0 < (truth.map (fun row => (row.filter (fun x => 0 < x)).length)).sum)
    (hzero : ∀ row ∈ truth, ¬ 0 < row.getD c 0) :
    (calculate_per_class_lwlrap truth scores).1.getD c 0 = 0 ∧
      (calculate_per_class_lwlrap truth scores).2.getD c 0 = 0 := by
  have hlabel : List.filter (fun row => decide (0 < row.getD c 0)) truth = [] := by
    rw [List.filter_eq_nil_iff]
    intro row hrow
    simpa using hzero row hrow
  simp only [calculate_per_class_lwlrap]
  by_cases hcC : c < (scores.headD []).length
  · constructor
    · rw [getD_map_range _ _ _ _ hcC]
      apply div_eq_zero_iff.mpr
      left
      apply List.sum_eq_zero
      intro x hx
      rw [List.map_map] at hx
      rcases List.mem_map.mp hx with ⟨s, hs, hxs⟩
      rw [← hxs]
      show (scatterRow (scores.headD []).length
          (one_sample_positive_class_precisions (scores.getD s []) (truth.getD s [])).1
          (one_sample_positive_class_precisions (scores.getD s []) (truth.getD s [])).2).getD
          c 0 = 0
      apply scatterRow_getD_zero
      rw [one_sample_fst]
      exact not_mem_pos_indices truth c hzero s
    · rw [List.map_map, getD_map_range _ _ _ _ hcC]
      show (((List.filter (fun row => decide (0 < row.getD c 0)) truth).length : Nat) : ℚ) /
          _ = 0
      rw [hlabel]
      simp
  · constructor
    · apply List.getD_eq_default
      simp only [List.length_map, List.length_range]
      omega
    · apply List.getD_eq_default
      simp only [List.length_map, List.length_range]
      omega

/-! ## C1: ranking order of the per-sample precision calculator -/

theorem insertAsc_perm (s : List ℚ) (i : Nat) :
    ∀ l : List Nat, (insertAsc s i l).Perm (i :: l) := by
  intro l
  induction l with
  | nil => exact List.Perm.refl [i]
  | cons j js ih =>
    simp only [insertAsc]
    split_ifs
    · exact List.Perm.refl _
    · exact (ih.cons j).trans (List.Perm.swap i j js)

theorem foldl_insertAsc_perm (s : List ℚ) :
    ∀ (l acc : List Nat),
      (l.foldl (fun acc i => insertAsc s i acc) acc).Perm (l ++ acc) := by
  intro l
  induction l with
  | nil => intro acc; exact List.Perm.refl acc
  | cons i l ih =>
    intro acc
    rw [List.foldl_cons]
    exact ((ih (insertAsc s i acc)).trans
      (List.Perm.append_left l (insertAsc_perm s i acc))).trans List.perm_middle

theorem argsort_perm (s : List ℚ) : (argsort s).Perm (List.range s.length) := by
  have h := foldl_insertAsc_perm s (List.range s.length) []
  simpa using h

theorem insertAsc_pairwise (s : List ℚ) (i : Nat) :
    ∀ l : List Nat,
      l.Pairwise (fun a b => s.getD a 0 < s.getD b 0 ∨ (s.getD a 0 = s.getD b 0 ∧ a < b)) →
      (∀ j ∈ l, j < i) →
      (insertAsc s i l).Pairwise
        (fun a b => s.getD a 0 < s.getD b 0 ∨ (s.getD a 0 = s.getD b 0 ∧ a < b)) := by
  intro l
  induction l with
  | nil => intro _ _; exact List.pairwise_singleton _ i
  | cons j js ih =>
    intro hp hlt
    have hjs := List.pairwise_cons.mp hp
    simp only [insertAsc]
    split_ifs with hij
    · apply List.Pairwise.cons
      · intro k hk
        rcases List.mem_cons.mp hk with hkj | hk2
        · rw [hkj]
          exact Or.inl hij
        · rcases hjs.1 k hk2 with h1 | h1
          · exact Or.inl (lt_trans hij h1)
          · exact Or.inl (h1.1 ▸ hij)
      · exact hp
    · apply List.Pairwise.cons
      · intro k hk
        rcases List.mem_cons.mp ((insertAsc_perm s i js).mem_iff.mp hk) with hki | hk2
        · rw [hki]
          rcases lt_or_eq_of_le (le_of_not_lt hij) with h1 | h1
          · exact Or.inl h1
          · exact Or.inr ⟨h1, hlt j (List.mem_cons_self j js)⟩
        · exact hjs.1 k hk2
      · exact ih hjs.2 (fun j2 hj2 => hlt j2 (List.mem_cons_of_mem j hj2))

theorem foldl_insertAsc_pairwise (s : List ℚ) :
    ∀ l acc : List Nat, l.Pairwise (fun a b => a < b) →
      acc.Pairwise (fun a b => s.getD a 0 < s.getD b 0 ∨ (s.getD a 0 = s.getD b 0 ∧ a < b)) →
      (∀ j ∈ acc, ∀ i ∈ l, j < i) →
      (l.foldl (fun acc i => insertAsc s i acc) acc).Pairwise
        (fun a b => s.getD a 0 < s.getD b 0 ∨ (s.getD a 0 = s.getD b 0 ∧ a < b)) := by
  intro l
  induction l with
  | nil => intro acc _ hacc _; exact hacc
  | cons i l ih =>
    intro acc hl hacc hja
    rw [List.foldl_cons]
    have hil := List.pairwise_cons.mp hl
    apply ih
    · exact hil.2
    · exact insertAsc_pairwise s i acc hacc
        (fun j hj => hja j hj i (List.mem_cons_self i l))
    · intro j hj i2 hi2
      rcases List.mem_cons.mp ((insertAsc_perm s i acc).mem_iff.mp hj) with hji | hj2
      · rw [hji]
        exact hil.1 i2 hi2
      · exact hja j hj2 i2 (List.mem_cons_of_mem i hi2)

theorem argsort_pairwise (s : List ℚ) :
    (argsort s).Pairwise
      (fun a b => s.getD a 0 < s.getD b 0 ∨ (s.getD a 0 = s.getD b 0 ∧ a < b)) := by
  apply foldl_insertAsc_pairwise s (List.range s.length) []
  · exact List.pairwise_lt_range s.length
  · exact List.Pairwise.nil
  · intro j hj
    exact absurd hj (List.not_mem_nil j)

/-- Evaluation of the per-sample precision calculator on the three-way tie:
the retrieval list is [2, 1, 0], so class 0 (rank 2) gets precision 2/3 and
class 2 (rank 0) gets precision 1. -/
theorem one_sample_tie_eval :
    one_sample_positive_class_precisions [1/2, 1/2, 1/2] [1, 0, 1] = ([0, 2], [2/3, 1]) := by
  have hretr : retrieved_classes [1/2, 1/2, 1/2] = [2, 1, 0] := by
    norm_num [retrieved_classes, argsort, insertAsc, List.range_succ]
  have hrank : class_rankings [1/2, 1/2, 1/2] = [2, 1, 0] := by
    simp only [class_rankings, hretr]; rfl
  have hpos : (List.range ([(1:ℚ), 0, 1] : List ℚ).length).filter
      (fun i => 0 < ([(1:ℚ), 0, 1] : List ℚ).getD i 0) = [0, 2] := rfl
  simp only [one_sample_positive_class_precisions, hpos, hrank]
  norm_num [cumsum, List.range_succ]

/-- C1 counterexample: at scores [0.5, 0.5, 0.5] and truth [1, 0, 1] the
calculator returns precisions (2/3, 1) for classes (0, 2) — class 0 does
NOT receive precision 1 and class 2 does NOT receive 2/3 as the claim
states, because np.argsort(scores)[::-1] puts the higher original index
first among tied scores. -/
theorem ranking_tie_break_counterexample :
    one_sample_positive_class_precisions [1/2, 1/2, 1/2] [1, 0, 1] = ([0, 2], [2/3, 1]) ∧
      one_sample_positive_class_precisions [1/2, 1/2, 1/2] [1, 0, 1] ≠ ([0, 2], [1, 2/3]) := by
  refine ⟨one_sample_tie_eval, ?_⟩
  rw [one_sample_tie_eval]
  intro h
  have h2 : ((2:ℚ)/3) = 1 := by
    have h3 := congrArg (fun p => p.2.getD 0 0) h
    simpa using h3
  norm_num at h2

/-- C1 (amended): for every score vector the retrieval list ranks all
classes by descending score with ties broken by the HIGHER original index
first (the reversal of a stable ascending argsort); in particular for
scores [0.5, 0.5, 0.5] and truth [1, 0, 1], index 2 is ranked before
index 1 before index 0, so class 2 receives precision 1/1 and class 0
receives precision 2/3. -/
theorem ranking_tie_break_amended :
    (∀ s : List ℚ,
        (retrieved_classes s).Perm (List.range s.length) ∧
        (retrieved_classes s).Pairwise (fun a b =>
          s.getD b 0 < s.getD a 0 ∨ (s.getD b 0 = s.getD a 0 ∧ b < a))) ∧
      retrieved_classes [1/2, 1/2, 1/2] = [2, 1, 0] ∧
      one_sample_positive_class_precisions [1/2, 1/2, 1/2] [1, 0, 1] = ([0, 2], [2/3, 1]) := by
  refine ⟨fun s => ⟨?_, ?_⟩, ?_, one_sample_tie_eval⟩
  · exact ((argsort s).reverse_perm).trans (argsort_perm s)
  · exact List.pairwise_reverse.mpr (argsort_pairwise s)
  · norm_num [retrieved_classes, argsort, insertAsc, List.range_succ]

/-! ## C7: the perfect-ranking batch -/

/-- C7: for truth [[1,0],[0,1]] and scores [[0.9,0.1],[0.2,0.8]] both
per-class lwlraps are 1, both weights are 1/2, and the overall score (the
dot product of the two vectors) is 1. -/
theorem lwlrap_perfect_ranking :
    calculate_per_class_lwlrap [[1, 0], [0, 1]] [[9/10, 1/10], [2/10, 8/10]] =
        ([1, 1], [1/2, 1/2]) ∧
      overall_lwlrap [[1, 0], [0, 1]] [[9/10, 1/10], [2/10, 8/10]] = 1 := by
  have hs1 : one_sample_positive_class_precisions [9/10, 1/10] [1, 0] = ([0], [1]) := by
    have hretr : retrieved_classes [9/10, 1/10] = [0, 1] := by
      norm_num [retrieved_classes, argsort, insertAsc, List.range_succ]
    have hrank : class_rankings [9/10, 1/10] = [0, 1] := by
      simp only [class_rankings, hretr]; rfl
    have hpos : (List.range ([(1:ℚ), 0] : List ℚ).length).filter
        (fun i => 0 < ([(1:ℚ), 0] : List ℚ).getD i 0) = [0] := rfl
    simp only [one_sample_positive_class_precisions, hpos, hrank]
    norm_num [cumsum, List.range_succ]
  have hs2 : one_sample_positive_class_precisions [1/5, 4/5] [0, 1] = ([1], [1]) := by
    have hretr : retrieved_classes [1/5, 4/5] = [1, 0] := by
      norm_num [retrieved_classes, argsort, insertAsc, List.range_succ]
    have hrank : class_rankings [1/5, 4/5] = [1, 0] := by
      simp only [class_rankings, hretr]; rfl
    have hpos : (List.range ([(0:ℚ), 1] : List ℚ).length).filter
        (fun i => 0 < ([(0:ℚ), 1] : List ℚ).getD i 0) = [1] := rfl
    simp only [one_sample_positive_class_precisions, hpos, hrank]
    norm_num [cumsum, List.range_succ]
  have hsc : ([[9/10, 1/10], [2/10, 8/10]] : List (List ℚ)) =
      [[9/10, 1/10], [1/5, 4/5]] := by norm_num
  have hmain : calculate_per_class_lwlrap [[1, 0], [0, 1]] [[9/10, 1/10], [1/5, 4/5]] =
      ([1, 1], [1/2, 1/2]) := by
    norm_num [calculate_per_class_lwlrap, hs1, hs2, scatterRow, List.range_succ]
  constructor
  · rw [hsc]
    exact hmain
  · simp only [overall_lwlrap, hsc, hmain]
    norm_num

/-! ## C5: graph-native lwlrap versus the reference -/

/-- C5: the graph-native tf_lwlrap disagrees with the reference pipeline.
At truth [[1,1]] and scores [[1,2]] the reference overall lwlrap is 1 while
tf_lwlrap returns 12500000/10000001 (about 1.25): the numerator list
correct_rank is gathered in (sample, rank) order while the denominator list
num_correct_until_correct is gathered in (sample, class) order, so the
precision fractions are misaligned whenever a sample's true classes are not
already listed in rank order.  The difference exceeds the 1e-5 tolerance by
four orders of magnitude. -/
theorem tf_lwlrap_mismatch :
    overall_lwlrap [[1, 1]] [[1, 2]] = 1 ∧
      tf_lwlrap [[1, 1]] [[1, 2]] = 12500000 / 10000001 ∧
      tf_lwlrap [[1, 1]] [[1, 2]] - overall_lwlrap [[1, 1]] [[1, 2]] > 1 / 100000 := by
  have hos : one_sample_positive_class_precisions [1, 2] [1, 1] = ([0, 1], [1, 1]) := by
    have hpos : (List.range ([(1:ℚ), 1] : List ℚ).length).filter
        (fun i => 0 < ([(1:ℚ), 1] : List ℚ).getD i 0) = [0, 1] := rfl
    have hrank : class_rankings [1, 2] = [1, 0] := rfl
    simp only [one_sample_positive_class_precisions, hpos, hrank]
    norm_num [cumsum, List.range_succ]
  have href : overall_lwlrap [[1, 1]] [[1, 2]] = 1 := by
    norm_num [overall_lwlrap, calculate_per_class_lwlrap, hos, scatterRow, List.range_succ]
  have htf : tf_lwlrap [[1, 1]] [[1, 2]] = 12500000 / 10000001 := by
    have h1 : tf_correct_rank [[1, 1]] [[1, 2]] = [1, 2] := rfl
    have h2 : tf_num_correct_until_correct [[1, 1]] [[1, 2]] = [1, 0] := rfl
    have h3 : tf_pos_class_indices [[1, 1]] = [(0, 0), (0, 1)] := rfl
    norm_num [tf_lwlrap, tf_precision_at_hits, h1, h2, h3, List.range_succ]
  refine ⟨href, htf, ?_⟩
  rw [href, htf]
  norm_num

/-- Witness for C6: a two-sample batch in which class 1 never occurs. -/
theorem per_class_lwlrap_zero_positive_class_witness :
    (([[1,0],[1,0]] : List (List ℚ)).length = ([[1,0],[0,1]] : List (List ℚ)).length ∧
        0 < (([[1,0],[1,0]] : List (List ℚ)).map
          (fun row => (row.filter (fun x => 0 < x)).length)).sum ∧
        ∀ row ∈ ([[1,0],[1,0]] : List (List ℚ)), ¬ 0 < row.getD 1 0) ∧
      (calculate_per_class_lwlrap [[1,0],[1,0]] [[1,0],[0,1]]).1.getD 1 0 = 0 ∧
      (calculate_per_class_lwlrap [[1,0],[1,0]] [[1,0],[0,1]]).2.getD 1 0 = 0 :=
  ⟨⟨by decide, by decide, by decide⟩,
    per_class_lwlrap_zero_positive_class [[1,0],[1,0]] [[1,0],[0,1]] 1
      (by decide) (by decide) (by decide)⟩

end FAT
